import Mathlib

/-!
Verification of the AgeToken attestation core of this repository.

The embedding covers:
  * the Node.js attestor (samples/attestor-node/attestor.js): the `signToken`
    serializer (JSON.stringify with the sorted key array as replacer) and the
    POST /issue_token handler;
  * the Python validator (samples/validator-python/validator.py):
    `validate_compact_token`, including its compact-form split, base64url
    decoding, signature check, JSON decoding and the audience/expiry policy
    checks, with the surrounding try/except collapsing every exception to
    `(False, message)`;
  * the TrustStore / ReplayGuard verifier that the design documents specify
    but the proof-of-concept code omits, modelled from the spec.

Modelling conventions:
  * JavaScript objects and Python dicts are association lists with distinct
    keys, in insertion order (`JsObj`).
  * Strings are treated at the level of their character lists; the byte view
    used by base64url is the character code of each character, which agrees
    with UTF-8 on the ASCII payloads the protocol produces.
  * Ed25519 signing and verification are abstracted as function parameters
    (the PoC holds a single hard-coded key pair); concrete instantiations are
    supplied in witnesses.
  * JSON string literals are modelled without escape sequences, which is
    exact for strings free of the quote and backslash characters.
-/

set_option maxRecDepth 200000

namespace AgeToken

/-- A JSON/JavaScript value as the token code manipulates it: strings,
integers (all timestamps in the protocol are integral Unix seconds) and
objects as insertion-ordered association lists. -/
inductive JsVal where
  | str : String → JsVal
  | int : Int → JsVal
  | obj : List (String × JsVal) → JsVal

/-- A JavaScript object / Python dict: fields with distinct keys in
insertion order. -/
abbrev JsObj := List (String × JsVal)

/-- Property lookup on an object (keys are unique, so first match). -/
def jsLookup : JsObj → String → Option JsVal
  | [], _ => none
  | (k, v) :: rest, key => if k = key then some v else jsLookup rest key

theorem sizeOf_jsLookup {fs : JsObj} {k : String} {v : JsVal}
    (h : jsLookup fs k = some v) : sizeOf v < sizeOf fs := by
  induction fs with
  | nil => simp [jsLookup] at h
  | cons p rest ih =>
    obtain ⟨k1, v1⟩ := p
    simp only [jsLookup] at h
    split at h
    · cases h; simp; omega
    · have := ih h; simp; omega

/-- JSON quoting of a string that contains no escape-worthy characters. -/
def jsonQuote (s : String) : String := "\"" ++ s ++ "\""

/-- Decimal digit to its character. -/
def digitChar (d : Nat) : Char := Char.ofNat (48 + d)

/-- The decimal digits of a natural number, most significant first
(fuel-based so that it evaluates inside the kernel). -/
def natDigitsFuel : Nat → Nat → List Nat
  | 0, _ => []
  | f + 1, n => if n = 0 then [] else natDigitsFuel f (n / 10) ++ [n % 10]

def natToChars (n : Nat) : List Char :=
  if n = 0 then ['0'] else (natDigitsFuel n n).map digitChar

/-- Decimal rendering of an integer, as JSON.stringify renders integral
numbers. -/
def intToChars (n : Int) : List Char :=
  if n < 0 then '-' :: natToChars n.natAbs else natToChars n.toNat

def intToString (n : Int) : String := ⟨intToChars n⟩

mutual
/-- One value serialized by `JSON.stringify(value, plist)`: `plist` is the
replacer array, which ECMA-262 applies as the key list of EVERY object that
gets serialized, nested ones included — properties whose key is not in
`plist` are dropped, and members appear in `plist` order. -/
def serializeVal (plist : List String) : JsVal → String
  | .str s => jsonQuote s
  | .int n => intToString n
  | .obj fs => "\x7b" ++ String.intercalate "," (serializeEntries plist plist fs) ++ "\x7d"
  termination_by v => (sizeOf v, 0)
  decreasing_by
    apply Prod.Lex.left
    simp

/-- The members of an object under replacer list `plist`: for each key of
`ks` (initially all of `plist`) in order, the member `"k":v` when the object
has property `k`, nothing otherwise. -/
def serializeEntries (plist : List String) (ks : List String) (fs : JsObj) : List String :=
  match ks with
  | [] => []
  | k :: ks2 =>
    match h : jsLookup fs k with
    | none => serializeEntries plist ks2 fs
    | some v => (jsonQuote k ++ ":" ++ serializeVal plist v) :: serializeEntries plist ks2 fs
  termination_by (sizeOf fs, ks.length + 1)
  decreasing_by
    · apply Prod.Lex.right
      simp
    · apply Prod.Lex.left
      exact sizeOf_jsLookup h
    · apply Prod.Lex.right
      simp
end

/-- The members of `fs` selected and ordered by the key list `ks`. -/
def projEntries (ks : List String) (fs : JsObj) : JsObj :=
  ks.filterMap (fun k => (jsLookup fs k).map (fun v => (k, v)))

/-- A structurally recursive (hence kernel-computable) evaluator for
`serializeVal`, used to compute concrete encodings; `serializeValF_eq` shows
it agrees with `serializeVal` whenever the fuel covers the value's size. -/
def serializeValF : Nat → List String → JsVal → String
  | 0, _, _ => ""
  | _ + 1, _, .str s => jsonQuote s
  | _ + 1, _, .int n => intToString n
  | f + 1, plist, .obj fs =>
    "\x7b" ++ String.intercalate ","
      ((projEntries plist fs).map (fun p => jsonQuote p.1 ++ ":" ++ serializeValF f plist p.2)) ++
      "\x7d"

theorem projEntries_nil (fs : JsObj) : projEntries [] fs = [] := rfl

theorem projEntries_cons (k : String) (ks : List String) (fs : JsObj) :
    projEntries (k :: ks) fs =
      match jsLookup fs k with
      | none => projEntries ks fs
      | some v => (k, v) :: projEntries ks fs := by
  cases h : jsLookup fs k <;> simp [projEntries, List.filterMap_cons, h]

theorem serializeValF_eq : ∀ (fuel : Nat) (plist : List String) (v : JsVal),
    sizeOf v ≤ fuel → serializeValF fuel plist v = serializeVal plist v := by
  intro fuel
  induction fuel with
  | zero =>
    intro plist v h
    exact absurd h (by cases v <;> simp <;> omega)
  | succ f ih =>
    intro plist v h
    match v with
    | .str s => rw [serializeValF, serializeVal]
    | .int n => rw [serializeValF, serializeVal]
    | .obj fs =>
      rw [serializeValF, serializeVal]
      have hfs : sizeOf fs ≤ f := by simp at h; omega
      have entries : ∀ ks : List String,
          (projEntries ks fs).map (fun p => jsonQuote p.1 ++ ":" ++ serializeValF f plist p.2) =
            serializeEntries plist ks fs := by
        intro ks
        induction ks with
        | nil => rw [serializeEntries]; rfl
        | cons k ks2 ihk =>
          rw [serializeEntries, projEntries_cons]
          match hl : jsLookup fs k with
          | none => simpa using ihk
          | some v1 =>
            have hv1 : sizeOf v1 ≤ f := le_trans (le_of_lt (sizeOf_jsLookup hl)) hfs
            simp only [List.map_cons]
            rw [ih plist v1 hv1]
            exact congrArg _ ihk
      rw [entries plist]

/-- JavaScript string comparison (used by Array.prototype.sort): (strict)
lexicographic comparison of the code units. -/
def charsLeB : List Char → List Char → Bool
  | [], _ => true
  | _ :: _, [] => false
  | a :: as, b :: bs =>
    if a.toNat < b.toNat then true
    else if b.toNat < a.toNat then false
    else charsLeB as bs

def strLeB (a b : String) : Bool := charsLeB a.data b.data

def insertKey (x : String) : List String → List String
  | [] => [x]
  | y :: ys => if strLeB x y then x :: y :: ys else y :: insertKey x ys

/-- `Object.keys(obj).sort()`: default sort, i.e. ascending string
comparison (insertion sort — stability is irrelevant on the distinct keys
`Object.keys` returns). -/
def sortKeys : List String → List String
  | [] => []
  | x :: xs => insertKey x (sortKeys xs)

/-- Embeds `JSON.stringify(payloadObj, Object.keys(payloadObj).sort())`
from `signToken` (attestor.js line 37): the canonical serialization the
attestor signs. -/
def encode (fs : JsObj) : String := serializeVal (sortKeys (fs.map Prod.fst)) (.obj fs)

/-- Evaluation form of `encode`: the fuelled serializer with sufficient
fuel. -/
theorem encode_eval (fs : JsObj) :
    encode fs = serializeValF (sizeOf (JsVal.obj fs)) (sortKeys (fs.map Prod.fst)) (.obj fs) :=
  (serializeValF_eq _ _ _ (le_refl _)).symm

/-! ## base64url (RFC 4648 §5, unpadded), over the byte view of strings -/

def b64Chars : List Char :=
  "ABCDEFGHIJKLMNOPQRSTUVWXYZabcdefghijklmnopqrstuvwxyz0123456789-_".data

def b64Char (n : Nat) : Char := b64Chars.getD n 'A'

/-- Position of a character in the base64url alphabet, `none` for a
character outside it. -/
def b64Index (c : Char) : Option Nat := b64Chars.findIdx? (fun d => d = c)

def b64urlEncodeBytes : List Nat → List Char
  | [] => []
  | [b1] => [b64Char (b1 / 4), b64Char (b1 % 4 * 16)]
  | [b1, b2] => [b64Char (b1 / 4), b64Char (b1 % 4 * 16 + b2 / 16), b64Char (b2 % 16 * 4)]
  | b1 :: b2 :: b3 :: rest =>
    b64Char (b1 / 4) :: b64Char (b1 % 4 * 16 + b2 / 16) ::
      b64Char (b2 % 16 * 4 + b3 / 64) :: b64Char (b3 % 64) :: b64urlEncodeBytes rest

def b64urlDecodeChars : List Char → Option (List Nat)
  | [] => some []
  | [_] => none
  | [c1, c2] =>
    match b64Index c1, b64Index c2 with
    | some v1, some v2 => some [v1 * 4 + v2 / 16]
    | _, _ => none
  | [c1, c2, c3] =>
    match b64Index c1, b64Index c2, b64Index c3 with
    | some v1, some v2, some v3 => some [v1 * 4 + v2 / 16, v2 % 16 * 16 + v3 / 4]
    | _, _, _ => none
  | c1 :: c2 :: c3 :: c4 :: rest =>
    match b64Index c1, b64Index c2, b64Index c3, b64Index c4, b64urlDecodeChars rest with
    | some v1, some v2, some v3, some v4, some bs =>
      some ((v1 * 4 + v2 / 16) :: (v2 % 16 * 16 + v3 / 4) :: (v3 % 4 * 64 + v4) :: bs)
    | _, _, _, _, _ => none

/-- The byte view of a string: character codes (equals UTF-8 for ASCII). -/
def strBytes (s : String) : List Nat := s.data.map Char.toNat

def bytesToStr (bs : List Nat) : String := ⟨bs.map Char.ofNat⟩

def b64urlEncodeStr (s : String) : String := ⟨b64urlEncodeBytes (strBytes s)⟩

/-! ### Round-trip of the wire pieces -/

theorem bytesToStr_strBytes (s : String) : bytesToStr (strBytes s) = s := by
  cases s with
  | mk data =>
    unfold bytesToStr strBytes
    rw [List.map_map]
    congr 1
    induction data with
    | nil => rfl
    | cons c cs ih => simp [Char.ofNat_toNat, ih]

theorem b64Index_b64Char_fin : ∀ n : Fin 64, b64Index (b64Char n.val) = some n.val := by
  decide

theorem b64Index_b64Char {n : Nat} (h : n < 64) : b64Index (b64Char n) = some n :=
  b64Index_b64Char_fin ⟨n, h⟩

theorem b64_roundtrip : ∀ (fuel : Nat) (bs : List Nat), bs.length ≤ fuel →
    (∀ b ∈ bs, b < 256) →
    b64urlDecodeChars (b64urlEncodeBytes bs) = some bs := by
  intro fuel
  induction fuel with
  | zero =>
    intro bs hlen _
    have : bs = [] := List.eq_nil_of_length_eq_zero (Nat.le_zero.mp hlen)
    subst this
    rfl
  | succ f ih =>
    intro bs hlen hbd
    match bs with
    | [] => rfl
    | [b1] =>
      have h1 : b1 < 256 := hbd b1 (by simp)
      rw [b64urlEncodeBytes, b64urlDecodeChars,
        b64Index_b64Char (by omega), b64Index_b64Char (by omega)]
      simp only [Option.some.injEq, List.cons.injEq, and_true]
      omega
    | [b1, b2] =>
      have h1 : b1 < 256 := hbd b1 (by simp)
      have h2 : b2 < 256 := hbd b2 (by simp)
      rw [b64urlEncodeBytes, b64urlDecodeChars, b64Index_b64Char (by omega),
        b64Index_b64Char (by omega), b64Index_b64Char (by omega)]
      simp only [Option.some.injEq, List.cons.injEq, and_true]
      constructor
      · omega
      · omega
    | b1 :: b2 :: b3 :: rest =>
      have h1 : b1 < 256 := hbd b1 (by simp)
      have h2 : b2 < 256 := hbd b2 (by simp)
      have h3 : b3 < 256 := hbd b3 (by simp)
      have hrest : b64urlDecodeChars (b64urlEncodeBytes rest) = some rest := by
        refine ih rest (by simp at hlen; omega) (fun b hb => hbd b (by simp [hb]))
      rw [b64urlEncodeBytes]
      rw [show b64Char (b1 / 4) :: b64Char (b1 % 4 * 16 + b2 / 16) ::
          b64Char (b2 % 16 * 4 + b3 / 64) :: b64Char (b3 % 64) :: b64urlEncodeBytes rest =
          b64Char (b1 / 4) :: b64Char (b1 % 4 * 16 + b2 / 16) ::
          b64Char (b2 % 16 * 4 + b3 / 64) :: b64Char (b3 % 64) :: b64urlEncodeBytes rest from rfl]
      rw [b64urlDecodeChars, b64Index_b64Char (by omega), b64Index_b64Char (by omega),
        b64Index_b64Char (by omega), b64Index_b64Char (by omega), hrest]
      simp only [Option.some.injEq, List.cons.injEq]
      refine ⟨by omega, by omega, by omega, trivial⟩

theorem b64Chars_no_dot : ∀ c ∈ b64Chars, c ≠ '.' := by decide

theorem b64Char_ne_dot (n : Nat) : b64Char n ≠ '.' := by
  unfold b64Char
  rw [List.getD_eq_getElem?_getD]
  cases h : b64Chars[n]? with
  | none => decide
  | some c =>
    simpa using b64Chars_no_dot c (List.getElem?_mem h)

theorem b64urlEncodeBytes_no_dot : ∀ (fuel : Nat) (bs : List Nat), bs.length ≤ fuel →
    '.' ∉ b64urlEncodeBytes bs := by
  intro fuel
  induction fuel with
  | zero =>
    intro bs hlen
    have : bs = [] := List.eq_nil_of_length_eq_zero (Nat.le_zero.mp hlen)
    subst this
    simp [b64urlEncodeBytes]
  | succ f ih =>
    intro bs hlen
    match bs with
    | [] => simp [b64urlEncodeBytes]
    | [b1] =>
      rw [b64urlEncodeBytes]
      intro hmem
      simp only [List.mem_cons, List.not_mem_nil, or_false] at hmem
      rcases hmem with h | h <;> exact b64Char_ne_dot _ h.symm
    | [b1, b2] =>
      rw [b64urlEncodeBytes]
      intro hmem
      simp only [List.mem_cons, List.not_mem_nil, or_false] at hmem
      rcases hmem with h | h | h <;> exact b64Char_ne_dot _ h.symm
    | b1 :: b2 :: b3 :: rest =>
      rw [b64urlEncodeBytes]
      intro hmem
      simp only [List.mem_cons] at hmem
      rcases hmem with h | h | h | h | h
      · exact b64Char_ne_dot _ h.symm
      · exact b64Char_ne_dot _ h.symm
      · exact b64Char_ne_dot _ h.symm
      · exact b64Char_ne_dot _ h.symm
      · exact ih rest (by simp at hlen; omega) h

/-! ## The attestor (attestor.js) -/

/-- Embeds `signToken` (attestor.js lines 35-40): serialize the payload with
sorted-keys replacer, sign the serialized bytes, emit
`base64url(payload) ++ "." ++ base64url(signature)`. The Ed25519 detached
signature is abstracted as the function `sign`. -/
def signToken (payloadObj : JsObj) (sign : String → String) : String :=
  let payload := encode payloadObj
  b64urlEncodeStr payload ++ "." ++ b64urlEncodeStr (sign payload)

/-- The claim payload the issuance handler builds (attestor.js lines 73-82),
with the fields in the insertion order of the object literal. -/
structure TokenObj where
  tid : String
  att : String
  age : String
  aud : String
  iat : Int
  exp : Int
  nonce : String
  flags : List (String × String)
  deriving Repr, DecidableEq

/-- The JS object literal of attestor.js lines 73-82, field order preserved. -/
def TokenObj.toJs (t : TokenObj) : JsObj :=
  [("tid", .str t.tid), ("att", .str t.att), ("age", .str t.age), ("aud", .str t.aud),
   ("iat", .int t.iat), ("exp", .int t.exp), ("nonce", .str t.nonce),
   ("flags", .obj (t.flags.map (fun p => (p.1, .str p.2))))]

/-- The two 400 rejections of the issuance handler. Both reach the caller as
a generic client error body. -/
inductive IssueError where
  | missingFields
  | invalidAgeBucket
  deriving Repr, DecidableEq

def validAgeBuckets : List String := ["UNDER_13", "13_15", "16_17", "18_PLUS"]

/-- Embeds the POST /issue_token handler (attestor.js lines 53-94) up to the
construction of the token object: `!age || !aud || !nonce` is emptiness on
the string fields, the age bucket must be in the closed list, `now` is the
whole-second clock reading and `tid` the fresh uuidv4, both passed as
arguments; `ttl = 60 * 60`. -/
def issue_token (age aud nonce : String) (now : Int) (tid : String) :
    Except IssueError TokenObj :=
  if age = "" ∨ aud = "" ∨ nonce = "" then .error .missingFields
  else if ¬ (age ∈ validAgeBuckets) then .error .invalidAgeBucket
  else .ok { tid := tid, att := "attestor.example.org", age := age, aud := aud,
             iat := now, exp := now + 3600, nonce := nonce,
             flags := [("purpose", "safety")] }

/-- The compact token the handler returns on success (attestor.js line 84). -/
def issuedCompact (t : TokenObj) (sign : String → String) : String :=
  signToken t.toJs sign

/-! ## The validator (validator.py) -/

/-- Python `compact_token.split('.')`: every occurrence of the separator
splits, empty pieces included. -/
def splitDots : List Char → List (List Char)
  | [] => [[]]
  | c :: rest =>
    match splitDots rest with
    | [] => [[]]
    | p :: ps => if c = '.' then [] :: p :: ps else (c :: p) :: ps

theorem splitDots_no_dot (a : List Char) (h : '.' ∉ a) : splitDots a = [a] := by
  induction a with
  | nil => rfl
  | cons c r ih =>
    have hc : ¬ c = '.' := fun hh => h (by simp [hh])
    have hr : '.' ∉ r := fun hh => h (by simp [hh])
    rw [splitDots, ih hr]
    simp [hc]

theorem splitDots_append_sep (a b : List Char) (ha : '.' ∉ a) (hb : '.' ∉ b) :
    splitDots (a ++ '.' :: b) = [a, b] := by
  induction a with
  | nil =>
    rw [List.nil_append, splitDots, splitDots_no_dot b hb]
    simp
  | cons c r ih =>
    have hc : ¬ c = '.' := fun hh => ha (by simp [hh])
    have hr : '.' ∉ r := fun hh => ha (by simp [hh])
    rw [List.cons_append, splitDots, ih hr]
    simp [hc]

/-- The value of a decimal digit character, `none` otherwise. -/
def digitVal (c : Char) : Option Nat :=
  if 48 ≤ c.toNat ∧ c.toNat ≤ 57 then some (c.toNat - 48) else none

/-- Longest digit prefix and the rest. -/
def takeDigits : List Char → List Nat × List Char
  | [] => ([], [])
  | c :: rest =>
    match digitVal c with
    | some d => let p := takeDigits rest; (d :: p.1, p.2)
    | none => ([], c :: rest)

def digitsToNat (ds : List Nat) : Nat := ds.foldl (fun a d => a * 10 + d) 0

/-- The characters of a JSON string literal after its opening quote: up to
the closing quote (escape sequences are outside the modelled grammar). -/
def takeStringChars : List Char → Option (List Char × List Char)
  | [] => none
  | c :: rest =>
    if c = '"' then some ([], rest)
    else (takeStringChars rest).map (fun p => (c :: p.1, p.2))

mutual
/-- Recursive-descent JSON parsing of the grammar the attestor emits
(objects, escape-free strings, integers); `json.loads` restricted to that
grammar. Structural fuel keeps it kernel-computable. -/
def parseVal (fuel : Nat) (cs : List Char) : Option (JsVal × List Char) :=
  match fuel with
  | 0 => none
  | f + 1 =>
    match cs with
    | [] => none
    | c :: rest =>
      if c = '"' then (takeStringChars rest).map (fun p => (.str ⟨p.1⟩, p.2))
      else if c = '\x7b' then
        match rest with
        | '\x7d' :: r => some (.obj [], r)
        | _ => (parseMembers f rest).map (fun p => (.obj p.1, p.2))
      else if c = '-' then
        match takeDigits rest with
        | ([], _) => none
        | (ds, r) => some (.int (-(digitsToNat ds : Int)), r)
      else
        match takeDigits (c :: rest) with
        | ([], _) => none
        | (ds, r) => some (.int (digitsToNat ds), r)

/-- The members of an object, after its opening brace, closing brace
included. -/
def parseMembers (fuel : Nat) (cs : List Char) : Option (JsObj × List Char) :=
  match fuel with
  | 0 => none
  | f + 1 =>
    match cs with
    | [] => none
    | c :: rest =>
      if c = '"' then
        match takeStringChars rest with
        | none => none
        | some (k, r1) =>
          match r1 with
          | [] => none
          | c2 :: r2 =>
            if c2 = ':' then
              match parseVal f r2 with
              | none => none
              | some (v, r3) =>
                match r3 with
                | [] => none
                | c3 :: r4 =>
                  if c3 = ',' then (parseMembers f r4).map (fun p => ((⟨k⟩, v) :: p.1, p.2))
                  else if c3 = '\x7d' then some ([(⟨k⟩, v)], r4)
                  else none
            else none
      else none
end

/-- A whole JSON text: one value consuming the entire input. -/
def parseJson (cs : List Char) : Option JsVal :=
  match parseVal (cs.length + 1) cs with
  | some (v, []) => some v
  | _ => none

/-! ### Parsing the serialized token back: helper lemmas -/

/-- The head of the list, when there is one, is not a decimal digit. -/
def headNotDigit : List Char → Prop
  | [] => True
  | c :: _ => digitVal c = none

theorem string_mk_data (s : String) : String.mk s.data = s := by cases s; rfl

theorem takeDigits_not_digit : ∀ {r : List Char}, headNotDigit r → takeDigits r = ([], r)
  | [], _ => rfl
  | c :: _, h => by
    rw [takeDigits, show digitVal c = none from h]

theorem takeStringChars_append (s r : List Char) (h : '"' ∉ s) :
    takeStringChars (s ++ '"' :: r) = some (s, r) := by
  induction s with
  | nil => rfl
  | cons c cs ih =>
    have hc : ¬ c = '"' := fun hh => h (by simp [hh])
    rw [List.cons_append, takeStringChars, if_neg hc, ih (fun hh => h (by simp [hh]))]
    rfl

theorem digitsToNat_append_digit (ds : List Nat) (d : Nat) :
    digitsToNat (ds ++ [d]) = digitsToNat ds * 10 + d := by
  unfold digitsToNat
  rw [List.foldl_append]
  rfl

theorem digitsToNat_single (d : Nat) : digitsToNat [d] = d := by
  show 0 * 10 + d = d
  omega

theorem natDigitsFuel_spec : ∀ (f n : Nat), 0 < n → n ≤ f →
    digitsToNat (natDigitsFuel f n) = n ∧ natDigitsFuel f n ≠ [] ∧
      ∀ d ∈ natDigitsFuel f n, d < 10 := by
  intro f
  induction f with
  | zero => intro n h1 h2; omega
  | succ f ih =>
    intro n h1 h2
    rw [natDigitsFuel, if_neg (by omega)]
    by_cases h10 : n / 10 = 0
    · have hnil : natDigitsFuel f (n / 10) = [] := by
        rw [h10]
        cases f <;> simp [natDigitsFuel]
      rw [hnil, List.nil_append]
      refine ⟨?_, by simp, ?_⟩
      · rw [digitsToNat_single]
        omega
      · intro d hd
        simp at hd
        omega
    · obtain ⟨ha, hb, hc⟩ := ih (n / 10) (by omega) (by omega)
      rw [digitsToNat_append_digit, ha]
      refine ⟨by omega, by simp, ?_⟩
      intro d hd
      rcases List.mem_append.mp hd with h | h
      · exact hc d h
      · simp at h
        omega

theorem digitChar_facts : ∀ d : Fin 10, digitVal (digitChar d.val) = some d.val ∧
    digitChar d.val ≠ '"' ∧ digitChar d.val ≠ '\x7b' ∧ digitChar d.val ≠ '-' := by
  decide

theorem natToChars_digits (n : Nat) : ∃ ds, natToChars n = ds.map digitChar ∧
    (∀ d ∈ ds, d < 10) ∧ ds ≠ [] ∧ digitsToNat ds = n := by
  by_cases h : n = 0
  · subst h
    exact ⟨[0], by decide, by decide, by decide, digitsToNat_single 0⟩
  · obtain ⟨ha, hb, hc⟩ := natDigitsFuel_spec n n (by omega) le_rfl
    exact ⟨natDigitsFuel n n, by rw [natToChars, if_neg h], hc, hb, ha⟩

theorem takeDigits_map_digitChar (ds : List Nat) (hds : ∀ d ∈ ds, d < 10) (r : List Char)
    (hr : headNotDigit r) :
    takeDigits (ds.map digitChar ++ r) = (ds, r) := by
  induction ds with
  | nil => exact takeDigits_not_digit hr
  | cons d ds2 ih =>
    rw [List.map_cons, List.cons_append, takeDigits,
      (digitChar_facts ⟨d, hds d (by simp)⟩).1]
    dsimp only
    rw [ih (fun x hx => hds x (by simp [hx]))]

/-- Parsing the decimal rendering of an integer consumes exactly it. -/
theorem parseVal_int (f : Nat) (e : Int) (rest : List Char) (hr : headNotDigit rest) :
    parseVal (f + 1) (intToChars e ++ rest) = some (.int e, rest) := by
  by_cases hneg : e < 0
  · rw [intToChars, if_pos hneg, List.cons_append, parseVal.eq_def]
    dsimp only
    rw [if_neg (by decide), if_neg (by decide), if_pos rfl]
    obtain ⟨ds, hmap, hlt, hne, hval⟩ := natToChars_digits e.natAbs
    rw [hmap, takeDigits_map_digitChar ds hlt rest hr]
    cases ds with
    | nil => exact absurd rfl hne
    | cons d ds2 =>
      dsimp only
      rw [hval]
      have h : -(e.natAbs : Int) = e := by omega
      rw [h]
  · rw [intToChars, if_neg hneg]
    obtain ⟨ds, hmap, hlt, hne, hval⟩ := natToChars_digits e.toNat
    cases ds with
    | nil => exact absurd rfl hne
    | cons d ds2 =>
      have hd10 : d < 10 := hlt d (by simp)
      have hfacts := digitChar_facts ⟨d, hd10⟩
      rw [hmap, List.map_cons, List.cons_append, parseVal.eq_def]
      dsimp only
      rw [if_neg hfacts.2.1, if_neg hfacts.2.2.1, if_neg hfacts.2.2.2]
      rw [show digitChar d :: (List.map digitChar ds2 ++ rest) =
          (d :: ds2).map digitChar ++ rest from by simp,
        takeDigits_map_digitChar _ hlt rest hr]
      dsimp only
      rw [hval]
      have h : (e.toNat : Int) = e := by omega
      rw [h]

theorem parseVal_emptyobj (f : Nat) (r : List Char) :
    parseVal (f + 1) ('\x7b' :: '\x7d' :: r) = some (.obj [], r) := rfl

theorem parseMembers_step_str (f : Nat) (k s : String) (rem : List Char)
    (hk : '"' ∉ k.data) (hs : '"' ∉ s.data) :
    parseMembers (f + 2) ('"' :: (k.data ++ '"' :: ':' :: '"' :: (s.data ++ '"' :: ',' :: rem))) =
      (parseMembers (f + 1) rem).map (fun p => ((k, JsVal.str s) :: p.1, p.2)) := by
  rw [parseMembers.eq_def]
  dsimp only
  rw [if_pos rfl]
  rw [takeStringChars_append k.data _ hk]
  dsimp only
  rw [if_pos rfl]
  rw [parseVal.eq_def]
  dsimp only
  rw [if_pos rfl]
  rw [takeStringChars_append s.data _ hs]
  dsimp only [Option.map]
  rw [if_pos rfl]

theorem parseMembers_last_str (f : Nat) (k s : String) (rem : List Char)
    (hk : '"' ∉ k.data) (hs : '"' ∉ s.data) :
    parseMembers (f + 2) ('"' :: (k.data ++ '"' :: ':' :: '"' :: (s.data ++ '"' :: '\x7d' :: rem))) =
      some ([(k, JsVal.str s)], rem) := by
  rw [parseMembers.eq_def]
  dsimp only
  rw [if_pos rfl]
  rw [takeStringChars_append k.data _ hk]
  dsimp only
  rw [if_pos rfl]
  rw [parseVal.eq_def]
  dsimp only
  rw [if_pos rfl]
  rw [takeStringChars_append s.data _ hs]
  dsimp only [Option.map]
  rw [if_neg (by decide), if_pos rfl]

theorem parseMembers_step_int (f : Nat) (k : String) (e : Int) (rem : List Char)
    (hk : '"' ∉ k.data) :
    parseMembers (f + 2) ('"' :: (k.data ++ '"' :: ':' :: (intToChars e ++ ',' :: rem))) =
      (parseMembers (f + 1) rem).map (fun p => ((k, JsVal.int e) :: p.1, p.2)) := by
  rw [parseMembers.eq_def]
  dsimp only
  rw [if_pos rfl]
  rw [takeStringChars_append k.data _ hk]
  dsimp only
  rw [if_pos rfl]
  rw [parseVal_int f e (',' :: rem) rfl]
  dsimp only
  rw [if_pos rfl]

theorem parseMembers_step_emptyobj (f : Nat) (k : String) (rem : List Char)
    (hk : '"' ∉ k.data) :
    parseMembers (f + 2) ('"' :: (k.data ++ '"' :: ':' :: '\x7b' :: '\x7d' :: ',' :: rem)) =
      (parseMembers (f + 1) rem).map (fun p => ((k, JsVal.obj []) :: p.1, p.2)) := by
  rw [parseMembers.eq_def]
  dsimp only
  rw [if_pos rfl]
  rw [takeStringChars_append k.data _ hk]
  dsimp only
  rw [if_pos rfl]
  rw [parseVal_emptyobj f (',' :: rem)]
  dsimp only
  rw [if_pos rfl]

theorem parseVal_obj_quote (f : Nat) (r : List Char) :
    parseVal (f + 1) ('\x7b' :: '"' :: r) =
      (parseMembers f ('"' :: r)).map (fun p => (JsVal.obj p.1, p.2)) := rfl

/-- The JSON value the validator's parser recovers from an issued token's
serialized payload: keys in sorted order, `flags` emptied by the encoder
(see C3). -/
def tokenParsed (t : TokenObj) : JsVal :=
  .obj [("age", .str t.age), ("att", .str t.att), ("aud", .str t.aud),
    ("exp", .int t.exp), ("flags", .obj []), ("iat", .int t.iat),
    ("nonce", .str t.nonce), ("tid", .str t.tid)]

/-- The exact character stream `encode` produces for a token payload whose
flags map is the handler's constant, written in the shape the parser
consumes. -/
def tokenChars (t : TokenObj) : List Char :=
  '\x7b' :: '"' :: ("age".data ++ '"' :: ':' :: '"' ::
    (t.age.data ++ '"' :: ',' :: '"' :: ("att".data ++ '"' :: ':' :: '"' ::
    (t.att.data ++ '"' :: ',' :: '"' :: ("aud".data ++ '"' :: ':' :: '"' ::
    (t.aud.data ++ '"' :: ',' :: '"' :: ("exp".data ++ '"' :: ':' ::
    (intToChars t.exp ++ ',' :: '"' :: ("flags".data ++ '"' :: ':' :: '\x7b' :: '\x7d' :: ',' ::
      '"' :: ("iat".data ++ '"' :: ':' ::
    (intToChars t.iat ++ ',' :: '"' :: ("nonce".data ++ '"' :: ':' :: '"' ::
    (t.nonce.data ++ '"' :: ',' :: '"' :: ("tid".data ++ '"' :: ':' :: '"' ::
    (t.tid.data ++ '"' :: '\x7d' :: [])))))))))))))))

theorem parseVal_token (t : TokenObj) (g : Nat)
    (hage : '"' ∉ t.age.data) (hatt : '"' ∉ t.att.data) (haud : '"' ∉ t.aud.data)
    (hnonce : '"' ∉ t.nonce.data) (htid : '"' ∉ t.tid.data) :
    parseVal (g + 12) (tokenChars t) = some (tokenParsed t, []) := by
  unfold tokenChars
  rw [parseVal_obj_quote]
  rw [parseMembers_step_str _ "age" t.age _ (by decide) hage]
  rw [parseMembers_step_str _ "att" t.att _ (by decide) hatt]
  rw [parseMembers_step_str _ "aud" t.aud _ (by decide) haud]
  rw [parseMembers_step_int _ "exp" t.exp _ (by decide)]
  rw [parseMembers_step_emptyobj _ "flags" _ (by decide)]
  rw [parseMembers_step_int _ "iat" t.iat _ (by decide)]
  rw [parseMembers_step_str _ "nonce" t.nonce _ (by decide) hnonce]
  rw [parseMembers_last_str _ "tid" t.tid _ (by decide) htid]
  rfl

/-- Non-dependent unfolding of the member serializer on a cons key list. -/
theorem serializeEntries_cons (plist : List String) (k : String) (ks : List String)
    (fs : JsObj) :
    serializeEntries plist (k :: ks) fs =
      match jsLookup fs k with
      | none => serializeEntries plist ks fs
      | some v => (jsonQuote k ++ ":" ++ serializeVal plist v) :: serializeEntries plist ks fs := by
  rw [serializeEntries]
  cases hl : jsLookup fs k <;> rfl

theorem intToString_data (e : Int) : (intToString e).data = intToChars e := rfl

theorem encode_token_chars (t : TokenObj) (hflags : t.flags = [("purpose", "safety")]) :
    (encode t.toJs).data = tokenChars t := by
  have hfl : serializeVal ["age", "att", "aud", "exp", "flags", "iat", "nonce", "tid"]
      (JsVal.obj [("purpose", JsVal.str "safety")]) = "\x7b\x7d" := by
    rw [← serializeValF_eq (sizeOf (JsVal.obj [("purpose", JsVal.str "safety")])) _ _ le_rfl]
    rfl
  unfold encode
  rw [show sortKeys (List.map Prod.fst t.toJs) =
      ["age", "att", "aud", "exp", "flags", "iat", "nonce", "tid"] from rfl]
  rw [serializeVal]
  rw [serializeEntries_cons, show jsLookup t.toJs "age" = some (JsVal.str t.age) from rfl]
  dsimp only
  rw [serializeEntries_cons, show jsLookup t.toJs "att" = some (JsVal.str t.att) from rfl]
  dsimp only
  rw [serializeEntries_cons, show jsLookup t.toJs "aud" = some (JsVal.str t.aud) from rfl]
  dsimp only
  rw [serializeEntries_cons, show jsLookup t.toJs "exp" = some (JsVal.int t.exp) from rfl]
  dsimp only
  rw [serializeEntries_cons, show jsLookup t.toJs "flags" =
      some (JsVal.obj (List.map (fun p => (p.1, JsVal.str p.2)) t.flags)) from rfl]
  dsimp only
  rw [serializeEntries_cons, show jsLookup t.toJs "iat" = some (JsVal.int t.iat) from rfl]
  dsimp only
  rw [serializeEntries_cons, show jsLookup t.toJs "nonce" = some (JsVal.str t.nonce) from rfl]
  dsimp only
  rw [serializeEntries_cons, show jsLookup t.toJs "tid" = some (JsVal.str t.tid) from rfl]
  dsimp only
  rw [serializeEntries]
  rw [hflags]
  dsimp only [List.map]
  rw [hfl]
  simp only [serializeVal]
  dsimp only [String.intercalate, String.intercalate.go]
  simp only [jsonQuote, String.data_append, intToString_data,
    show ("\"" : String).data = ['"'] from rfl,
    show (":" : String).data = [':'] from rfl,
    show ("," : String).data = [','] from rfl,
    show ("\x7b" : String).data = ['\x7b'] from rfl,
    show ("\x7d" : String).data = ['\x7d'] from rfl,
    show ("\x7b\x7d" : String).data = ['\x7b', '\x7d'] from rfl,
    List.cons_append, List.nil_append, List.append_assoc]
  rfl

/-- A string whose characters are single-byte (so the char-code byte view is
faithful) and quote-free (so it embeds in a JSON string literal verbatim). -/
def cleanStr (s : String) : Prop := ∀ c ∈ s.data, c.toNat < 256 ∧ c ≠ '"'

theorem cleanStr_no_quote {s : String} (h : cleanStr s) : '"' ∉ s.data :=
  fun hmem => (h '"' hmem).2 rfl

theorem cleanStr_lt {s : String} (h : cleanStr s) : ∀ c ∈ s.data, c.toNat < 256 :=
  fun c hc => (h c hc).1

theorem natToChars_lt (n : Nat) : ∀ c ∈ natToChars n, c.toNat < 256 := by
  intro c hc
  obtain ⟨ds, hmap, hlt, -, -⟩ := natToChars_digits n
  rw [hmap] at hc
  obtain ⟨d, hd, rfl⟩ := List.mem_map.mp hc
  have h10 : d < 10 := hlt d hd
  have hfin : ∀ d : Fin 10, (digitChar d.val).toNat < 256 := by decide
  exact hfin ⟨d, h10⟩

theorem intToChars_lt (e : Int) : ∀ c ∈ intToChars e, c.toNat < 256 := by
  intro c hc
  unfold intToChars at hc
  split at hc
  · rcases List.mem_cons.mp hc with h | h
    · subst h; decide
    · exact natToChars_lt _ _ h
  · exact natToChars_lt _ _ hc

theorem tokenChars_lt (t : TokenObj)
    (h1 : cleanStr t.age) (h2 : cleanStr t.att) (h3 : cleanStr t.aud)
    (h4 : cleanStr t.nonce) (h5 : cleanStr t.tid) :
    ∀ c ∈ tokenChars t, c.toNat < 256 := by
  unfold tokenChars
  repeat
    first
      | exact cleanStr_lt h1
      | exact cleanStr_lt h2
      | exact cleanStr_lt h3
      | exact cleanStr_lt h4
      | exact cleanStr_lt h5
      | exact intToChars_lt t.exp
      | exact intToChars_lt t.iat
      | exact List.forall_mem_nil _
      | refine List.forall_mem_append.mpr ⟨?_, ?_⟩
      | refine List.forall_mem_cons.mpr ⟨by decide, ?_⟩

theorem parseJson_tokenChars (t : TokenObj)
    (hage : '"' ∉ t.age.data) (hatt : '"' ∉ t.att.data) (haud : '"' ∉ t.aud.data)
    (hnonce : '"' ∉ t.nonce.data) (htid : '"' ∉ t.tid.data) :
    parseJson (tokenChars t) = some (tokenParsed t) := by
  have hlen : 11 ≤ (tokenChars t).length := by
    simp [tokenChars]
    omega
  unfold parseJson
  rw [show (tokenChars t).length + 1 = ((tokenChars t).length - 11) + 12 from by omega]
  rw [parseVal_token t _ hage hatt haud hnonce htid]

/-- What the validator's `(ok, info)` pair carries in its second component:
the parsed payload dict on acceptance, an error string otherwise. -/
inductive VInfo where
  | payload : JsVal → VInfo
  | err : String → VInfo

/-- Python subscription `v[k]`: defined only on dicts that have the key
(anything else raises, which the caller maps to an exception path). -/
def jsGet (v : JsVal) (k : String) : Option JsVal :=
  match v with
  | .obj fs => jsLookup fs k
  | _ => none

/-- The body of `validate_compact_token` (validator.py lines 141-159) as an
exception monad: `Except.error` marks the paths where the Python raises
(unpack of the split, base64url decoding, `verify`, `json.loads`, missing
keys, ordering against a non-integer `exp`), `Except.ok` the two explicit
`return` statements. Checks appear in source order: audience before
expiry; a non-string `aud` value compares unequal to the expected audience
exactly as in Python. -/
def validateSteps (verify : String → String → Bool) (compact : String)
    (expected_aud : String) (now : Int) : Except String (Bool × VInfo) :=
  match splitDots compact.data with
  | [p, s] =>
    match b64urlDecodeChars p with
    | none => .error "base64"
    | some pbs =>
      match b64urlDecodeChars s with
      | none => .error "base64"
      | some sbs =>
        if verify (bytesToStr pbs) (bytesToStr sbs) = false then .error "bad signature"
        else
          match parseJson (bytesToStr pbs).data with
          | none => .error "json"
          | some payload =>
            match jsGet payload "aud" with
            | none => .error "aud"
            | some audVal =>
              if (match audVal with | .str a => a == expected_aud | _ => false) = false then
                .ok (false, .err "audience mismatch")
              else
                match jsGet payload "exp" with
                | none => .error "exp"
                | some expVal =>
                  match expVal with
                  | .int e =>
                    if e < now then .ok (false, .err "expired")
                    else .ok (true, .payload payload)
                  | _ => .error "exp type"
  | _ => .error "split"

/-- Embeds `validate_compact_token` (validator.py lines 140-162): the
try/except turns every raised exception into `(False, str(e))`; the
hard-coded module-level `public_key.verify` is abstracted as `verify`. -/
def validate_compact_token (verify : String → String → Bool) (compact_token : String)
    (expected_aud : String) (now : Int) : Bool × VInfo :=
  match validateSteps verify compact_token expected_aud now with
  | .ok r => r
  | .error e => (false, .err e)

/-! ## General lemmas about issuance and validation -/

/-- Everything a successful issuance pins down: the handler copies the three
validated inputs, stamps `iat = now` and `exp = now + 3600`, and fixes the
attestor id and the flags map. -/
theorem issue_token_ok_inv {age aud nonce : String} {now : Int} {tid : String}
    {tok : TokenObj} (h : issue_token age aud nonce now tid = .ok tok) :
    tok = { tid := tid, att := "attestor.example.org", age := age, aud := aud,
            iat := now, exp := now + 3600, nonce := nonce,
            flags := [("purpose", "safety")] } ∧
    age ∈ validAgeBuckets ∧ aud ≠ "" ∧ nonce ≠ "" := by
  unfold issue_token at h
  split at h
  · exact absurd h (by simp)
  next hfields =>
    split at h
    · exact absurd h (by simp)
    next hage =>
      push_neg at hfields hage
      cases h
      exact ⟨rfl, hage, hfields.2.1, hfields.2.2⟩

/-- How `validate_compact_token` decides once the wire pipeline has produced
a parsed payload with a string `aud` and an integer `exp`: audience first,
then the `exp < now` comparison, acceptance otherwise. -/
theorem validate_of_pipeline (verify : String → String → Bool) (compact : String)
    (expected_aud : String) (now : Int) {p s : List Char} {pb sb : List Nat}
    {pv : JsVal} {A : String} {E : Int}
    (hsplit : splitDots compact.data = [p, s])
    (hp : b64urlDecodeChars p = some pb)
    (hs : b64urlDecodeChars s = some sb)
    (hv : verify (bytesToStr pb) (bytesToStr sb) = true)
    (hparse : parseJson (bytesToStr pb).data = some pv)
    (haud : jsGet pv "aud" = some (.str A))
    (hexp : jsGet pv "exp" = some (.int E)) :
    validate_compact_token verify compact expected_aud now =
      if A ≠ expected_aud then (false, .err "audience mismatch")
      else if E < now then (false, .err "expired")
      else (true, .payload pv) := by
  unfold validate_compact_token validateSteps
  rw [hsplit]
  dsimp only
  rw [hp]
  dsimp only
  rw [hs]
  dsimp only
  rw [if_neg (by simp [hv])]
  rw [hparse]
  dsimp only
  rw [haud]
  dsimp only
  rw [hexp]
  by_cases hA : A = expected_aud
  · rw [if_neg (by simp [hA]), if_neg (by simp [hA])]
    dsimp only
    by_cases hE : E < now
    · rw [if_pos hE, if_pos hE]
    · rw [if_neg hE, if_neg hE]
  · rw [if_pos (by simp [hA]), if_pos (by simp [hA])]

/-- Wire round trip assembled: an issued payload with clean string fields
serializes, base64url-encodes, splits, decodes and parses back, so the
validator's decision reduces to the audience and expiry comparisons on the
token's own fields. -/
theorem validate_issued (t : TokenObj) (sign : String → String)
    (verify : String → String → Bool) (expected : String) (now : Int)
    (hflags : t.flags = [("purpose", "safety")])
    (h1 : cleanStr t.age) (h2 : cleanStr t.att) (h3 : cleanStr t.aud)
    (h4 : cleanStr t.nonce) (h5 : cleanStr t.tid)
    (hsig : ∀ b ∈ strBytes (sign (encode t.toJs)), b < 256)
    (hver : verify (encode t.toJs) (sign (encode t.toJs)) = true) :
    validate_compact_token verify (issuedCompact t sign) expected now =
      if t.aud ≠ expected then (false, .err "audience mismatch")
      else if t.exp < now then (false, .err "expired")
      else (true, .payload (tokenParsed t)) := by
  have hdata : (encode t.toJs).data = tokenChars t := encode_token_chars t hflags
  have hwire : (issuedCompact t sign).data =
      b64urlEncodeBytes (strBytes (encode t.toJs)) ++
        '.' :: b64urlEncodeBytes (strBytes (sign (encode t.toJs))) := by
    show (b64urlEncodeStr (encode t.toJs) ++ "." ++
        b64urlEncodeStr (sign (encode t.toJs))).data = _
    simp [b64urlEncodeStr, String.data_append]
  have hsplit : splitDots (issuedCompact t sign).data =
      [b64urlEncodeBytes (strBytes (encode t.toJs)),
       b64urlEncodeBytes (strBytes (sign (encode t.toJs)))] := by
    rw [hwire]
    exact splitDots_append_sep _ _
      (b64urlEncodeBytes_no_dot _ _ le_rfl) (b64urlEncodeBytes_no_dot _ _ le_rfl)
  have hpbound : ∀ b ∈ strBytes (encode t.toJs), b < 256 := by
    intro b hb
    obtain ⟨c, hc, rfl⟩ := List.mem_map.mp hb
    rw [hdata] at hc
    exact tokenChars_lt t h1 h2 h3 h4 h5 c hc
  have hp : b64urlDecodeChars (b64urlEncodeBytes (strBytes (encode t.toJs))) =
      some (strBytes (encode t.toJs)) := b64_roundtrip _ _ le_rfl hpbound
  have hsdec : b64urlDecodeChars (b64urlEncodeBytes (strBytes (sign (encode t.toJs)))) =
      some (strBytes (sign (encode t.toJs))) := b64_roundtrip _ _ le_rfl hsig
  have hbp : bytesToStr (strBytes (encode t.toJs)) = encode t.toJs := bytesToStr_strBytes _
  have hbs : bytesToStr (strBytes (sign (encode t.toJs))) = sign (encode t.toJs) :=
    bytesToStr_strBytes _
  have hv : verify (bytesToStr (strBytes (encode t.toJs)))
      (bytesToStr (strBytes (sign (encode t.toJs)))) = true := by
    rw [hbp, hbs]; exact hver
  have hparse : parseJson (bytesToStr (strBytes (encode t.toJs))).data =
      some (tokenParsed t) := by
    rw [hbp, hdata]
    exact parseJson_tokenChars t (cleanStr_no_quote h1) (cleanStr_no_quote h2)
      (cleanStr_no_quote h3) (cleanStr_no_quote h4) (cleanStr_no_quote h5)
  exact validate_of_pipeline verify _ expected now hsplit hp hsdec hv hparse rfl rfl

theorem issued_clean {age aud nonce : String} {now_i : Int} {tid : String} {tok : TokenObj}
    (hiss : issue_token age aud nonce now_i tid = .ok tok)
    (haudC : cleanStr aud) (hnonceC : cleanStr nonce) (htidC : cleanStr tid) :
    tok.flags = [("purpose", "safety")] ∧ cleanStr tok.age ∧ cleanStr tok.att ∧
      cleanStr tok.aud ∧ cleanStr tok.nonce ∧ cleanStr tok.tid := by
  obtain ⟨htok, hagev, -, -⟩ := issue_token_ok_inv hiss
  subst htok
  refine ⟨rfl, ?_, show cleanStr "attestor.example.org" by unfold cleanStr; decide, haudC, hnonceC, htidC⟩
  simp only [validAgeBuckets, List.mem_cons, List.not_mem_nil, or_false] at hagev
  rcases hagev with rfl | rfl | rfl | rfl
  · exact show cleanStr "UNDER_13" by unfold cleanStr; decide
  · exact show cleanStr "13_15" by unfold cleanStr; decide
  · exact show cleanStr "16_17" by unfold cleanStr; decide
  · exact show cleanStr "18_PLUS" by unfold cleanStr; decide

/-! ## A concrete issued token, used by the witnesses

The scenario of spec §8: issue `(age "13_15", aud "app.example",
nonce "r4nd1")` at `t = 1000` with the fresh token id `"tok-1"`; signing is
instantiated with a tagging function and verification with the matching
checker. -/

def demoTok : TokenObj :=
  { tid := "tok-1", att := "attestor.example.org", age := "13_15", aud := "app.example",
    iat := 1000, exp := 4600, nonce := "r4nd1", flags := [("purpose", "safety")] }

/-- The canonical serialization of `demoTok` (note `"flags":\x7b\x7d`: the
replacer array filters the nested map away). -/
def demoPayload : String :=
  "\x7b\"age\":\"13_15\",\"att\":\"attestor.example.org\",\"aud\":\"app.example\",\"exp\":4600,\"flags\":\x7b\x7d,\"iat\":1000,\"nonce\":\"r4nd1\",\"tid\":\"tok-1\"\x7d"

theorem encode_demoTok : encode demoTok.toJs = demoPayload := by
  rw [encode_eval]
  rfl

def demoSign (s : String) : String := "SIG:" ++ s

def demoVerify (p s : String) : Bool := s == "SIG:" ++ p

/-- The payload dict the validator parses back from the wire form of
`demoTok` (fields in canonical order, flags emptied by the encoder). -/
def demoParsed : JsVal :=
  .obj [("age", .str "13_15"), ("att", .str "attestor.example.org"),
    ("aud", .str "app.example"), ("exp", .int 4600), ("flags", .obj []),
    ("iat", .int 1000), ("nonce", .str "r4nd1"), ("tid", .str "tok-1")]

def demoP : List Char := (b64urlEncodeStr demoPayload).data

def demoS : List Char := (b64urlEncodeStr (demoSign demoPayload)).data

theorem demo_compact_eq : issuedCompact demoTok demoSign =
    b64urlEncodeStr demoPayload ++ "." ++ b64urlEncodeStr (demoSign demoPayload) := by
  rw [issuedCompact, signToken, encode_demoTok]

theorem demo_split : splitDots (issuedCompact demoTok demoSign).data = [demoP, demoS] := by
  rw [demo_compact_eq]
  rfl

theorem demo_p_decodes : b64urlDecodeChars demoP = some (strBytes demoPayload) := by rfl

theorem demo_s_decodes : b64urlDecodeChars demoS = some (strBytes (demoSign demoPayload)) := by
  rfl

theorem demo_sig_checks :
    demoVerify (bytesToStr (strBytes demoPayload)) (bytesToStr (strBytes (demoSign demoPayload))) =
      true := by rfl

theorem demo_parse : parseJson (bytesToStr (strBytes demoPayload)).data = some demoParsed := by
  rfl

theorem demo_aud : jsGet demoParsed "aud" = some (.str "app.example") := by rfl

theorem demo_exp : jsGet demoParsed "exp" = some (.int 4600) := by rfl

theorem demo_issued : issue_token "13_15" "app.example" "r4nd1" 1000 "tok-1" = .ok demoTok := by
  rfl

/-! ## Claims about issuance -/

/-- C6: every successfully issued token satisfies
`expires_at - issued_at = 3600`, the fixed policy TTL: `issued_at` is the
clock reading and `expires_at` is `now + 3600`, whatever the caller-supplied
fields are (no request field reaches the TTL computation). -/
theorem c6_issuance_ttl_exact {age aud nonce : String} {now : Int} {tid : String}
    {tok : TokenObj} (h : issue_token age aud nonce now tid = .ok tok) :
    tok.exp - tok.iat = 3600 ∧ tok.iat = now ∧ tok.exp = now + 3600 := by
  obtain ⟨rfl, -⟩ := issue_token_ok_inv h
  refine ⟨?_, rfl, rfl⟩
  show now + 3600 - now = 3600
  omega

/-- C6 witness: the demo issuance at t = 1000 gives iat 1000, exp 4600. -/
theorem c6_witness :
    demoTok.exp - demoTok.iat = 3600 ∧ demoTok.iat = 1000 ∧ demoTok.exp = 1000 + 3600 :=
  c6_issuance_ttl_exact demo_issued

/-- C9: the attestor identifier and flags of every issued token are the
constants `"attestor.example.org"` and `purpose: safety`, and the
caller-supplied input reaches exactly the age, aud and nonce fields (tid and
the timestamps come from the issuer's uuid and clock). -/
theorem c9_constant_att_flags {age aud nonce : String} {now : Int} {tid : String}
    {tok : TokenObj} (h : issue_token age aud nonce now tid = .ok tok) :
    tok.att = "attestor.example.org" ∧ tok.flags = [("purpose", "safety")] ∧
    tok.age = age ∧ tok.aud = aud ∧ tok.nonce = nonce ∧
    tok.tid = tid ∧ tok.iat = now ∧ tok.exp = now + 3600 := by
  obtain ⟨rfl, -⟩ := issue_token_ok_inv h
  exact ⟨rfl, rfl, rfl, rfl, rfl, rfl, rfl, rfl⟩

/-- C9 witness: the demo issuance carries the two constants. -/
theorem c9_witness :
    demoTok.att = "attestor.example.org" ∧ demoTok.flags = [("purpose", "safety")] ∧
    demoTok.age = "13_15" ∧ demoTok.aud = "app.example" ∧ demoTok.nonce = "r4nd1" ∧
    demoTok.tid = "tok-1" ∧ demoTok.iat = 1000 ∧ demoTok.exp = 1000 + 3600 :=
  c9_constant_att_flags demo_issued

/-- True exactly when the issuance handler rejects with a 400 client
error. -/
def issueRejects (age aud nonce : String) (now : Int) (tid : String) : Bool :=
  match issue_token age aud nonce now tid with
  | .error _ => true
  | .ok _ => false

/-- Claim C7 as stated, parameterized by the length bounds it asserts:
issuance fails with a client error exactly when the age bucket is outside
the closed enumeration, or audience or nonce is empty or exceeds its length
bound. -/
def ClaimC7 (maxAud maxNonce : Nat) : Prop :=
  ∀ (age aud nonce : String) (now : Int) (tid : String),
    issueRejects age aud nonce now tid = true ↔
      (age ∉ validAgeBuckets ∨ aud = "" ∨ nonce = "" ∨
        aud.length > maxAud ∨ nonce.length > maxNonce)

/-- C7 counterexample: no pair of length bounds makes the claim true — for
any candidate bound the handler happily issues a token whose nonce is one
character longer (it checks no lengths at all). -/
theorem c7_counterexample : (∃ maxAud maxNonce : Nat, ClaimC7 maxAud maxNonce) = False := by
  simp only [eq_iff_iff, iff_false]
  rintro ⟨mA, mN, h⟩
  have hne : (⟨List.replicate (mN + 1) 'n'⟩ : String) ≠ "" := by
    intro hh
    have h0 : List.replicate (mN + 1) 'n' = ([] : List Char) := congrArg String.data hh
    simp at h0
  have h2 := h "13_15" "a" ⟨List.replicate (mN + 1) 'n'⟩ 0 "t"
  have hok : issueRejects "13_15" "a" ⟨List.replicate (mN + 1) 'n'⟩ 0 "t" = false := by
    unfold issueRejects issue_token
    rw [if_neg (by push_neg; exact ⟨by decide, by decide, hne⟩)]
    rw [if_neg (by simp [validAgeBuckets])]
  have hlen : (⟨List.replicate (mN + 1) 'n'⟩ : String).length > mN := by
    have : (⟨List.replicate (mN + 1) 'n'⟩ : String).length = mN + 1 := by
      simp [String.length]
    omega
  have := h2.mpr (Or.inr (Or.inr (Or.inr (Or.inr hlen))))
  rw [hok] at this
  exact Bool.false_ne_true this

/-- C7 amended: the handler rejects with a client error exactly when the age
bucket is outside the closed enumeration or audience or nonce is empty; it
enforces no upper length bounds (and `age ∈ validAgeBuckets` subsumes
`age ≠ ""`). -/
theorem c7_invalid_input_iff (age aud nonce : String) (now : Int) (tid : String) :
    issueRejects age aud nonce now tid = true ↔
      (age ∉ validAgeBuckets ∨ aud = "" ∨ nonce = "") := by
  unfold issueRejects issue_token
  by_cases h1 : age = "" ∨ aud = "" ∨ nonce = ""
  · rw [if_pos h1]
    simp only [true_iff]
    rcases h1 with h | h | h
    · exact Or.inl (by rw [h]; decide)
    · exact Or.inr (Or.inl h)
    · exact Or.inr (Or.inr h)
  · rw [if_neg h1]
    push_neg at h1
    by_cases h2 : age ∈ validAgeBuckets
    · rw [if_neg (by simpa using h2)]
      simp [h2, h1.2.1, h1.2.2]
    · rw [if_pos (by simpa using h2)]
      simp [h2]

/-! ## Claims about validation of issued tokens -/

/-- C2 (amended): the code's acceptance condition on time is
`now ≤ expires_at`, not `now < expires_at`: every issued token — with
single-byte, quote-free request strings, an abstract signer whose output is
single-byte, and a verifier that accepts the signer's output — verifies
against its own audience at `now = expires_at - 1` AND at
`now = expires_at`, and fails with "expired" at `now = expires_at + 1`;
the wire round trip (serialize, base64url-encode, split on '.', decode,
parse) is proved, not assumed, and the Python rejects only when
`exp < now`. -/
theorem c2_expiry_boundary {age aud nonce : String} {now_i : Int} {tid : String}
    (sign : String → String) (verify : String → String → Bool) {tok : TokenObj}
    (hiss : issue_token age aud nonce now_i tid = .ok tok)
    (haudC : cleanStr aud) (hnonceC : cleanStr nonce) (htidC : cleanStr tid)
    (hsig : ∀ b ∈ strBytes (sign (encode tok.toJs)), b < 256)
    (hver : verify (encode tok.toJs) (sign (encode tok.toJs)) = true) :
    validate_compact_token verify (issuedCompact tok sign) tok.aud (tok.exp - 1) =
      (true, .payload (tokenParsed tok)) ∧
    validate_compact_token verify (issuedCompact tok sign) tok.aud tok.exp =
      (true, .payload (tokenParsed tok)) ∧
    validate_compact_token verify (issuedCompact tok sign) tok.aud (tok.exp + 1) =
      (false, .err "expired") := by
  obtain ⟨hflags, hc1, hc2, hc3, hc4, hc5⟩ := issued_clean hiss haudC hnonceC htidC
  refine ⟨?_, ?_, ?_⟩ <;>
    rw [validate_issued tok sign verify tok.aud _ hflags hc1 hc2 hc3 hc4 hc5 hsig hver]
  · rw [if_neg (by simp), if_neg (by omega)]
  · rw [if_neg (by simp), if_neg (by omega)]
  · rw [if_neg (by simp), if_pos (by omega)]

/-- C2 counterexample: the demo token expires at 4600, and verifying it at
`now = expires_at = 4600` SUCCEEDS, where the claim requires failure with
`Expired`. -/
theorem c2_counterexample :
    demoTok.exp = 4600 ∧
    validate_compact_token demoVerify (issuedCompact demoTok demoSign) "app.example" 4600 =
      (true, .payload demoParsed) := by
  refine ⟨rfl, ?_⟩
  rw [demo_compact_eq]
  rfl

/-- C2 witness: the boundary behaviour of the demo token at 4599, 4600 and
4601, every hypothesis discharged concretely. -/
theorem c2_witness :
    validate_compact_token demoVerify (issuedCompact demoTok demoSign) "app.example" 4599 =
      (true, .payload (tokenParsed demoTok)) ∧
    validate_compact_token demoVerify (issuedCompact demoTok demoSign) "app.example" 4600 =
      (true, .payload (tokenParsed demoTok)) ∧
    validate_compact_token demoVerify (issuedCompact demoTok demoSign) "app.example" 4601 =
      (false, .err "expired") :=
  c2_expiry_boundary demoSign demoVerify demo_issued
    (by unfold cleanStr; decide) (by unfold cleanStr; decide) (by unfold cleanStr; decide)
    (by rw [encode_demoTok]; decide)
    (by rw [encode_demoTok]; rfl)

/-- C8: an issued token — same issuance hypotheses as C2 — verified against
any expected audience other than its own fails with "audience mismatch", at
every verification time: the audience check precedes the expiry check in the
code, and the wire round trip is proved from the issuance hypotheses. -/
theorem c8_audience_binding {age aud nonce : String} {now_i : Int} {tid : String}
    (sign : String → String) (verify : String → String → Bool) {tok : TokenObj}
    (hiss : issue_token age aud nonce now_i tid = .ok tok)
    (haudC : cleanStr aud) (hnonceC : cleanStr nonce) (htidC : cleanStr tid)
    (hsig : ∀ b ∈ strBytes (sign (encode tok.toJs)), b < 256)
    (hver : verify (encode tok.toJs) (sign (encode tok.toJs)) = true)
    (expected : String) (now : Int) (hne : expected ≠ aud) :
    validate_compact_token verify (issuedCompact tok sign) expected now =
      (false, .err "audience mismatch") := by
  have haudtok : tok.aud = aud := (issue_token_ok_inv hiss).1 ▸ rfl
  obtain ⟨hflags, hc1, hc2, hc3, hc4, hc5⟩ := issued_clean hiss haudC hnonceC htidC
  rw [validate_issued tok sign verify expected now hflags hc1 hc2 hc3 hc4 hc5 hsig hver]
  rw [if_pos (by rw [haudtok]; exact Ne.symm hne)]

/-- C8 witness: the demo token against audience "other.app" fails with
"audience mismatch". -/
theorem c8_witness :
    validate_compact_token demoVerify (issuedCompact demoTok demoSign) "other.app" 2000 =
      (false, .err "audience mismatch") :=
  c8_audience_binding demoSign demoVerify demo_issued
    (by unfold cleanStr; decide) (by unfold cleanStr; decide) (by unfold cleanStr; decide)
    (by rw [encode_demoTok]; decide)
    (by rw [encode_demoTok]; rfl)
    "other.app" 2000 (by decide)

/-- C10: the validator is total — every input string and audience yield a
`(success, info)` pair — and success inverts the entire pipeline: it forces
exactly one '.' separator, two base64url-decodable segments, a passing
signature check, a JSON object payload whose "aud" is the expected audience
(as a string) and whose "exp" is an integer with `now ≤ exp`.
Contrapositively, every input malformed in any of these ways (zero or
several separators, non-base64url segments, non-JSON payloads, missing
fields) yields `success = false`. -/
theorem c10_total_and_malformed_rejected (verify : String → String → Bool)
    (t expected_aud : String) (now : Int) :
    (∃ b i, validate_compact_token verify t expected_aud now = (b, i)) ∧
    ((validate_compact_token verify t expected_aud now).1 = true →
      ∃ p s pb sb pv E,
        splitDots t.data = [p, s] ∧
        b64urlDecodeChars p = some pb ∧
        b64urlDecodeChars s = some sb ∧
        verify (bytesToStr pb) (bytesToStr sb) = true ∧
        parseJson (bytesToStr pb).data = some pv ∧
        jsGet pv "aud" = some (.str expected_aud) ∧
        jsGet pv "exp" = some (.int E) ∧ now ≤ E) := by
  refine ⟨⟨_, _, rfl⟩, ?_⟩
  intro h
  unfold validate_compact_token validateSteps at h
  rcases hsplit : splitDots t.data with - | ⟨p, - | ⟨s, - | ⟨x, xs⟩⟩⟩
  case nil => rw [hsplit] at h; exact absurd h (by simp)
  case cons.nil => rw [hsplit] at h; exact absurd h (by simp)
  case cons.cons.cons => rw [hsplit] at h; exact absurd h (by simp)
  case cons.cons.nil =>
    rw [hsplit] at h
    dsimp only at h
    cases hp : b64urlDecodeChars p with
    | none => rw [hp] at h; exact absurd h (by simp)
    | some pb =>
      rw [hp] at h
      dsimp only at h
      cases hs : b64urlDecodeChars s with
      | none => rw [hs] at h; exact absurd h (by simp)
      | some sb =>
        rw [hs] at h
        dsimp only at h
        by_cases hv : verify (bytesToStr pb) (bytesToStr sb) = false
        · rw [if_pos hv] at h; exact absurd h (by simp)
        · rw [if_neg hv] at h
          cases hparse : parseJson (bytesToStr pb).data with
          | none => rw [hparse] at h; exact absurd h (by simp)
          | some pv =>
            rw [hparse] at h
            dsimp only at h
            cases haud : jsGet pv "aud" with
            | none => rw [haud] at h; exact absurd h (by simp)
            | some audVal =>
              rw [haud] at h
              dsimp only at h
              cases audVal with
              | int n => simp at h
              | obj l => simp at h
              | str a =>
                dsimp only at h
                by_cases hA : a = expected_aud
                · rw [if_neg (by simp [hA])] at h
                  cases hexp : jsGet pv "exp" with
                  | none => rw [hexp] at h; exact absurd h (by simp)
                  | some expVal =>
                    rw [hexp] at h
                    dsimp only at h
                    match expVal, hexp with
                    | .int e, hexp =>
                      by_cases he : e < now
                      · simp [he] at h
                      · subst hA
                        exact ⟨p, s, pb, sb, pv, e, rfl, hp, hs,
                          by simpa using hv, hparse, haud, hexp, by omega⟩
                    | .str _, hexp => exact absurd h (by simp)
                    | .obj _, hexp => exact absurd h (by simp)
                · rw [if_pos (by simp [hA])] at h
                  exact absurd h (by simp)

/-- The issuer's payload with its flags map emptied. -/
def demoTokNoFlags : TokenObj :=
  { demoTok with flags := [] }

/-- Observer separating the two colliding payloads: the member count of the
nested flags object. -/
def flagsCount (fs : JsObj) : Option Nat :=
  match jsLookup fs "flags" with
  | some (.obj l) => some l.length
  | _ => none

/-- C3: `encode` is not injective on valid ClaimSets, so no decoder
round-trips it: the issuer's own payload (flags = purpose: safety) and its
flags-stripped variant encode to the SAME bytes — the sorted top-level key
array, used as the JSON.stringify replacer, filters the nested flags map
down to \x7b\x7d — hence `decode (encode c) = c` fails for every candidate
decode at one of these two inputs. -/
theorem c3_roundtrip_impossible :
    encode demoTok.toJs = demoPayload ∧
    encode demoTokNoFlags.toJs = demoPayload ∧
    demoTok.flags = [("purpose", "safety")] ∧
    demoTokNoFlags.flags = [] ∧
    (∀ dec : String → JsObj,
      dec (encode demoTok.toJs) = demoTok.toJs →
        dec (encode demoTokNoFlags.toJs) = demoTokNoFlags.toJs → False) := by
  have h1 : encode demoTok.toJs = demoPayload := encode_demoTok
  have h2 : encode demoTokNoFlags.toJs = demoPayload := by
    rw [encode_eval]
    rfl
  refine ⟨h1, h2, rfl, rfl, ?_⟩
  intro dec hd1 hd2
  rw [h1] at hd1
  rw [h2] at hd2
  have heq : demoTok.toJs = demoTokNoFlags.toJs := hd1 ▸ hd2 ▸ rfl
  have hobs := congrArg flagsCount heq
  rw [show flagsCount demoTok.toJs = some 1 from rfl,
    show flagsCount demoTokNoFlags.toJs = some 0 from rfl] at hobs
  simp at hobs

/-! ## The revocation- and replay-aware verifier of the design documents

The proof-of-concept code in the repository has no TrustStore and no
ReplayGuard: the Python validator verifies against a single hard-coded key
and carries only a comment where the replay check would go, while the
STRIDE threat model and the Technical Appendix mandate revocation checking
and nonce replay prevention. The definitions of this section are therefore
modelled from the spec (§3, §4.3-§4.5), not translated from code. -/

namespace Spec

/-- Modelled from the spec: the ClaimSet payload of §3 (the `extensions`
map is the open bounded key/value map). -/
structure ClaimSet where
  token_id : String
  attestor_id : String
  age_bucket : String
  audience : String
  issued_at : Int
  expires_at : Int
  nonce : String
  extensions : List (String × String)
  deriving Repr, DecidableEq

/-- Modelled from the spec: a TrustEntry of §3, owned by the TrustStore. -/
structure TrustEntry where
  attestor_id : String
  key_id : String
  public_key : String
  valid_from : Int
  valid_until : Int
  revoked : Bool
  deriving Repr, DecidableEq

/-- Modelled from the spec: the trust failure variants of §4.3. -/
inductive TrustError where
  | unknownAttestor
  | unknownKey
  | keyExpired
  | revoked
  deriving Repr, DecidableEq

/-- Modelled from the spec: the verification failure taxonomy of §4.4/§7. -/
inductive VerifyError where
  | malformed
  | trust : TrustError → VerifyError
  | badSignature
  | expired
  | audienceMismatch
  | policyViolation
  | replayed
  deriving Repr, DecidableEq

/-- Modelled from the spec: the SignedToken wire artifact of §3,
`(payload_bytes, signature_bytes, key_id)`. -/
structure SignedToken where
  payload : String
  signature : String
  key_id : String
  deriving Repr, DecidableEq

/-- Modelled from the spec: `resolve` of §4.3. The revoked flag takes
precedence over an otherwise-valid time window; the validity window is
`[valid_from, valid_until)`. -/
def resolve (store : List TrustEntry) (att key : String) (at_time : Int) :
    Except TrustError String :=
  match store.find? (fun e => e.attestor_id == att && e.key_id == key) with
  | none =>
    if store.any (fun e => e.attestor_id == att) then .error .unknownKey
    else .error .unknownAttestor
  | some e =>
    if e.revoked then .error .revoked
    else if at_time < e.valid_from ∨ e.valid_until ≤ at_time then .error .keyExpired
    else .ok e.public_key

/-- Modelled from the spec: the ReplayGuard of §4.5, a set of
`(dedup_key, expires_at)` records (purging is time-driven and does not
affect the two claims proved below). -/
abbrev ReplayGuard := List ((String × String × String) × Int)

/-- Modelled from the spec: `dedup_key = hash(attestor_id, token_id, nonce)`
of §3, with the hash modelled as the (injective) triple itself. -/
def dedupKey (c : ClaimSet) : String × String × String :=
  (c.attestor_id, c.token_id, c.nonce)

/-- Modelled from the spec: the ordered verification state machine of §4.4
(Decoding, TrustLookup, SignatureCheck, PolicyCheck, ReplayCheck, Accepted),
short-circuiting at the first failing state, with the ReplayGuard insertion
happening on success only. The CanonicalCodec decoder and the signature
check are the `decode` and `checkSig` components. -/
def verify (decode : String → Option ClaimSet) (checkSig : String → String → String → Bool)
    (store : List TrustEntry) (maxPayload maxExt : Nat) (st : SignedToken)
    (expected_audience : String) (now : Int) (g : ReplayGuard) :
    Except VerifyError ClaimSet × ReplayGuard :=
  match decode st.payload with
  | none => (.error .malformed, g)
  | some claims =>
    match resolve store claims.attestor_id st.key_id now with
    | .error te => (.error (.trust te), g)
    | .ok pk =>
      if checkSig pk st.payload st.signature = false then (.error .badSignature, g)
      else if ¬ now < claims.expires_at then (.error .expired, g)
      else if claims.audience ≠ expected_audience then (.error .audienceMismatch, g)
      else if st.payload.length > maxPayload ∨ claims.extensions.length > maxExt then
        (.error .policyViolation, g)
      else if dedupKey claims ∈ g.map Prod.fst then (.error .replayed, g)
      else (.ok claims, (dedupKey claims, claims.expires_at) :: g)

/-- Everything a successful verification pins down, in particular that the
guard gained exactly the token's dedup key. -/
theorem verify_ok_inv {decode checkSig store maxPayload maxExt st expected_audience now g c g2}
    (h : verify decode checkSig store maxPayload maxExt st expected_audience now g =
      (.ok c, g2)) :
    decode st.payload = some c ∧
    (∃ pk, resolve store c.attestor_id st.key_id now = .ok pk ∧
      checkSig pk st.payload st.signature = true) ∧
    now < c.expires_at ∧ c.audience = expected_audience ∧
    ¬ (st.payload.length > maxPayload ∨ c.extensions.length > maxExt) ∧
    dedupKey c ∉ g.map Prod.fst ∧
    g2 = (dedupKey c, c.expires_at) :: g := by
  unfold verify at h
  split at h
  · exact absurd h (by simp)
  next claims hdec =>
    split at h
    · exact absurd h (by simp)
    next pk hres =>
      split at h
      · exact absurd h (by simp)
      next hsig =>
        split at h
        · exact absurd h (by simp)
        next hexp =>
          split at h
          · exact absurd h (by simp)
          next haud =>
            split at h
            · exact absurd h (by simp)
            next hcap =>
              split at h
              · exact absurd h (by simp)
              next hmem =>
                simp only [Prod.mk.injEq, Except.ok.injEq] at h
                obtain ⟨rfl, rfl⟩ := h
                push_neg at hexp haud
                exact ⟨hdec, ⟨pk, hres, by simpa using hsig⟩, hexp, haud, hcap, hmem, rfl⟩

/-- C1: a token the verifier has accepted once is rejected with `Replayed`
when the identical token is verified again against the same audience: the
accepting call records the token's dedup key in the ReplayGuard, and the
second call short-circuits on it (the guard is left unchanged). Proved
against the verifier modelled from the spec, since the PoC code omits the
ReplayGuard. -/
theorem c1_replay_second_verification_fails
    {decode checkSig store maxPayload maxExt st expected_audience now g c g2}
    (h : verify decode checkSig store maxPayload maxExt st expected_audience now g =
      (.ok c, g2)) :
    verify decode checkSig store maxPayload maxExt st expected_audience now g2 =
      (.error .replayed, g2) := by
  obtain ⟨hdec, ⟨pk, hres, hsig⟩, hexp, haud, hcap, hmem, hg2⟩ := verify_ok_inv h
  subst hg2
  unfold verify
  rw [hdec]
  dsimp only
  rw [hres]
  dsimp only
  rw [if_neg (by simp [hsig])]
  rw [if_neg (by simpa using hexp)]
  rw [if_neg (by simp [haud])]
  rw [if_neg hcap]
  rw [if_pos (by simp)]

/-- C5: with a trust entry for the token's key marked revoked, verification
fails with `Revoked` no matter the verification time or the token's issuance
time, and the outcome is the same under any two signature-checking
functions: the rejection happens before any signature math runs. Proved
against the verifier modelled from the spec, since the PoC code never
consults a trust store. -/
theorem c5_revoked_rejected_before_signature
    {decode : String → Option ClaimSet} {checkSig1 checkSig2 store maxPayload maxExt}
    {st : SignedToken} {expected_audience : String} {now : Int} {g : ReplayGuard}
    {claims : ClaimSet} {e : TrustEntry}
    (hdec : decode st.payload = some claims)
    (hfind : store.find?
      (fun e => e.attestor_id == claims.attestor_id && e.key_id == st.key_id) = some e)
    (hrev : e.revoked = true) :
    verify decode checkSig1 store maxPayload maxExt st expected_audience now g =
      (.error (.trust .revoked), g) ∧
    verify decode checkSig2 store maxPayload maxExt st expected_audience now g =
      (.error (.trust .revoked), g) := by
  have hres : resolve store claims.attestor_id st.key_id now = .error .revoked := by
    unfold resolve
    rw [hfind]
    dsimp only
    rw [if_pos hrev]
  constructor <;> (unfold verify; rw [hdec]; dsimp only; rw [hres])

/-- A concrete trust-and-token scene for the witnesses: one attestor key,
one well-formed token bound to audience `aud1`, expiring at 100. -/
def demoClaims : ClaimSet :=
  { token_id := "t1", attestor_id := "att1", age_bucket := "13_15", audience := "aud1",
    issued_at := 0, expires_at := 100, nonce := "n1", extensions := [] }

def demoDecode : String → Option ClaimSet :=
  fun p => if p = "payload" then some demoClaims else none

def demoCheckSig : String → String → String → Bool :=
  fun pk p s => pk == "PK" && s == "sig:" ++ p

def demoStore : List TrustEntry :=
  [{ attestor_id := "att1", key_id := "k1", public_key := "PK",
     valid_from := 0, valid_until := 1000, revoked := false }]

def demoRevokedStore : List TrustEntry :=
  [{ attestor_id := "att1", key_id := "k1", public_key := "PK",
     valid_from := 0, valid_until := 1000, revoked := true }]

def demoSigned : SignedToken :=
  { payload := "payload", signature := "sig:payload", key_id := "k1" }

def demoGuard1 : ReplayGuard := [(("att1", "t1", "n1"), 100)]

/-- C1 witness: the scene's token is accepted once from an empty guard and
the identical second verification fails with `Replayed`. -/
theorem c1_witness :
    verify demoDecode demoCheckSig demoStore 100 10 demoSigned "aud1" 50 [] =
      (.ok demoClaims, demoGuard1) ∧
    verify demoDecode demoCheckSig demoStore 100 10 demoSigned "aud1" 50 demoGuard1 =
      (.error .replayed, demoGuard1) :=
  ⟨rfl, @c1_replay_second_verification_fails demoDecode demoCheckSig demoStore 100 10
    demoSigned "aud1" 50 [] demoClaims demoGuard1 rfl⟩

/-- C5 witness: the same token under the store whose only entry is revoked
is rejected with `Revoked` at a time inside the key's validity window, for a
token issued before the revocation, under two signature checkers that
disagree everywhere. -/
theorem c5_witness :
    verify demoDecode (fun _ _ _ => true) demoRevokedStore 100 10 demoSigned "aud1" 50 [] =
      (.error (.trust .revoked), []) ∧
    verify demoDecode (fun _ _ _ => false) demoRevokedStore 100 10 demoSigned "aud1" 50 [] =
      (.error (.trust .revoked), []) :=
  c5_revoked_rejected_before_signature rfl rfl rfl

end Spec

/-! ## Claim C4: encode is invariant under member insertion order

Logical identity up to insertion order is captured by a normal form: every
object's members sorted by key, recursively. The claim is that two
well-keyed payloads with the same normal form encode to identical bytes. -/

def keyMem (x : String) : List String → Bool
  | [] => false
  | y :: ys => x == y || keyMem x ys

/-- Keys pairwise distinct. -/
def keysNodupB : List String → Bool
  | [] => true
  | k :: ks => !keyMem k ks && keysNodupB ks

def insertPair (p : String × JsVal) : List (String × JsVal) → List (String × JsVal)
  | [] => [p]
  | q :: qs => if strLeB p.1 q.1 then p :: q :: qs else q :: insertPair p qs

/-- Insertion sort of members by key, with the same comparison the replacer
list is sorted by. -/
def sortFields : List (String × JsVal) → List (String × JsVal)
  | [] => []
  | p :: ps => insertPair p (sortFields ps)

mutual
/-- The normal form of a value under reordering of object members. -/
def normalizeJs : JsVal → JsVal
  | .str s => .str s
  | .int n => .int n
  | .obj fs => .obj (sortFields (normFields fs))

def normFields : List (String × JsVal) → List (String × JsVal)
  | [] => []
  | (k, v) :: rest => (k, normalizeJs v) :: normFields rest
end

mutual
/-- Keys are duplicate-free at every nesting level (JavaScript objects
cannot carry duplicate keys). -/
def wkB : JsVal → Bool
  | .str _ => true
  | .int _ => true
  | .obj fs => keysNodupB (fs.map Prod.fst) && wkFieldsB fs

def wkFieldsB : List (String × JsVal) → Bool
  | [] => true
  | (_, v) :: rest => wkB v && wkFieldsB rest
end

theorem keys_normFields (fs : JsObj) :
    (normFields fs).map Prod.fst = fs.map Prod.fst := by
  induction fs with
  | nil => rfl
  | cons p rest ih =>
    obtain ⟨k, v⟩ := p
    simp [normFields, ih]

theorem lookup_normFields (fs : JsObj) (k : String) :
    jsLookup (normFields fs) k = (jsLookup fs k).map normalizeJs := by
  induction fs with
  | nil => rfl
  | cons p rest ih =>
    obtain ⟨k1, v1⟩ := p
    by_cases h : k1 = k <;> simp [normFields, jsLookup, h, ih]

theorem keys_insertPair (p : String × JsVal) (l : List (String × JsVal)) :
    (insertPair p l).map Prod.fst = insertKey p.1 (l.map Prod.fst) := by
  induction l with
  | nil => rfl
  | cons q qs ih =>
    by_cases h : strLeB p.1 q.1 = true <;> simp [insertPair, insertKey, h, ih]

theorem keys_sortFields (fs : JsObj) :
    (sortFields fs).map Prod.fst = sortKeys (fs.map Prod.fst) := by
  induction fs with
  | nil => rfl
  | cons p ps ih => simp [sortFields, sortKeys, keys_insertPair, ih]

theorem keyMem_insertKey (x y : String) (ks : List String) :
    keyMem x (insertKey y ks) = (x == y || keyMem x ks) := by
  induction ks with
  | nil => rfl
  | cons z zs ih =>
    by_cases h : strLeB y z = true <;>
      simp [insertKey, keyMem, h, ih, Bool.or_left_comm]

theorem keyMem_sortKeys (x : String) (ks : List String) :
    keyMem x (sortKeys ks) = keyMem x ks := by
  induction ks with
  | nil => rfl
  | cons k ks2 ih => simp [sortKeys, keyMem, keyMem_insertKey, ih]

theorem lookup_insertPair (p : String × JsVal) (l : List (String × JsVal))
    (hp : keyMem p.1 (l.map Prod.fst) = false) (k : String) :
    jsLookup (insertPair p l) k = if p.1 = k then some p.2 else jsLookup l k := by
  induction l with
  | nil => rfl
  | cons q qs ih =>
    have hpq : ¬ p.1 = q.1 := by
      simp [keyMem] at hp
      exact hp.1
    have hp2 : keyMem p.1 (qs.map Prod.fst) = false := by
      simp [keyMem] at hp
      simpa using hp.2
    by_cases h : strLeB p.1 q.1 = true
    · simp [insertPair, h, jsLookup]
    · simp only [insertPair, if_neg h, jsLookup]
      by_cases h1 : p.1 = k
      · have h2 : ¬ q.1 = k := fun hq => hpq (h1.trans hq.symm)
        simp [h1, h2, ih hp2]
      · by_cases h2 : q.1 = k <;> simp [h1, h2, ih hp2]

theorem lookup_sortFields (fs : JsObj) (h : keysNodupB (fs.map Prod.fst) = true)
    (k : String) : jsLookup (sortFields fs) k = jsLookup fs k := by
  induction fs with
  | nil => rfl
  | cons p ps ih =>
    have hm : keyMem p.1 (ps.map Prod.fst) = false := by
      simp [keysNodupB] at h
      simpa using h.1
    have hnd : keysNodupB (ps.map Prod.fst) = true := by
      simp [keysNodupB] at h
      exact h.2
    have hm2 : keyMem p.1 ((sortFields ps).map Prod.fst) = false := by
      rw [keys_sortFields, keyMem_sortKeys]
      exact hm
    obtain ⟨k1, v1⟩ := p
    rw [sortFields, lookup_insertPair _ _ hm2 k, ih hnd]
    rfl

theorem wkB_obj {fs : JsObj} (h : wkB (.obj fs) = true) :
    keysNodupB (fs.map Prod.fst) = true ∧ wkFieldsB fs = true := by
  rw [wkB] at h
  exact ⟨(Bool.and_eq_true_iff.mp h).1, (Bool.and_eq_true_iff.mp h).2⟩

theorem wkFieldsB_lookup {fs : JsObj} {k : String} {v : JsVal}
    (h : wkFieldsB fs = true) (hl : jsLookup fs k = some v) : wkB v = true := by
  induction fs with
  | nil => simp [jsLookup] at hl
  | cons p rest ih =>
    obtain ⟨k1, v1⟩ := p
    rw [wkFieldsB, Bool.and_eq_true_iff] at h
    rw [jsLookup] at hl
    split at hl
    · cases hl
      exact h.1
    · exact ih h.2 hl

/-- Serialization only sees objects through key lookups, so a well-keyed
value serializes identically to its normal form: member reordering cannot
change the bytes. -/
theorem serializeVal_normalize : ∀ (n : Nat) (plist : List String) (v : JsVal),
    sizeOf v ≤ n → wkB v = true →
    serializeVal plist (normalizeJs v) = serializeVal plist v := by
  intro n
  induction n with
  | zero =>
    intro plist v hsz _
    exact absurd hsz (by cases v <;> simp <;> omega)
  | succ f ih =>
    intro plist v hsz hwk
    match v with
    | .str s => rfl
    | .int n => rfl
    | .obj fs =>
      obtain ⟨hnd, hwf⟩ := wkB_obj hwk
      have hszfs : sizeOf fs ≤ f := by simp at hsz; omega
      have hlook : ∀ k, jsLookup (sortFields (normFields fs)) k =
          (jsLookup fs k).map normalizeJs := by
        intro k
        rw [lookup_sortFields _ (by rw [keys_normFields]; exact hnd) k, lookup_normFields]
      have entries : ∀ ks, serializeEntries plist ks (sortFields (normFields fs)) =
          serializeEntries plist ks fs := by
        intro ks
        induction ks with
        | nil => rw [serializeEntries, serializeEntries]
        | cons k ks2 ihk =>
          rw [serializeEntries_cons, serializeEntries_cons, hlook k]
          cases hl : jsLookup fs k with
          | none => simpa using ihk
          | some v1 =>
            have hv1 : sizeOf v1 ≤ f := le_trans (le_of_lt (sizeOf_jsLookup hl)) hszfs
            have hwkv1 : wkB v1 = true := wkFieldsB_lookup hwf hl
            dsimp only [Option.map]
            rw [ih plist v1 hv1 hwkv1, ihk]
      rw [normalizeJs, serializeVal, serializeVal, entries plist]

/-- C4: two well-keyed payload objects that are logically identical up to
member insertion order — at the top level and inside nested objects, i.e.
with equal normal forms — encode to identical bytes: the replacer list is
the sorted key set and members are emitted in replacer order, so insertion
order never reaches the output. -/
theorem c4_encode_order_invariant (a b : JsObj)
    (ha : wkB (.obj a) = true) (hb : wkB (.obj b) = true)
    (hnorm : normalizeJs (.obj a) = normalizeJs (.obj b)) :
    encode a = encode b := by
  have hkeys : sortKeys (a.map Prod.fst) = sortKeys (b.map Prod.fst) := by
    have h1 := congrArg
      (fun v => match v with | JsVal.obj fs => fs.map Prod.fst | _ => ([] : List String))
      hnorm
    rw [normalizeJs, normalizeJs] at h1
    simpa [keys_sortFields, keys_normFields] using h1
  show serializeVal (sortKeys (a.map Prod.fst)) (.obj a) =
    serializeVal (sortKeys (b.map Prod.fst)) (.obj b)
  calc serializeVal (sortKeys (a.map Prod.fst)) (.obj a)
      = serializeVal (sortKeys (a.map Prod.fst)) (normalizeJs (.obj a)) :=
        (serializeVal_normalize (sizeOf (JsVal.obj a)) _ _ le_rfl ha).symm
    _ = serializeVal (sortKeys (a.map Prod.fst)) (normalizeJs (.obj b)) := by rw [hnorm]
    _ = serializeVal (sortKeys (b.map Prod.fst)) (normalizeJs (.obj b)) := by rw [hkeys]
    _ = serializeVal (sortKeys (b.map Prod.fst)) (.obj b) :=
        serializeVal_normalize (sizeOf (JsVal.obj b)) _ _ le_rfl hb

/-- Two member orders of the same logical payload, reordered both at the
top level and inside the nested flags object. -/
def c4A : JsObj :=
  [("b", .int 1), ("a", .str "x"),
   ("flags", .obj [("p", .str "1"), ("q", .str "2")])]

def c4B : JsObj :=
  [("flags", .obj [("q", .str "2"), ("p", .str "1")]),
   ("a", .str "x"), ("b", .int 1)]

/-- C4 witness: the two concrete reorderings encode to the same bytes. -/
theorem c4_witness : encode c4A = encode c4B :=
  c4_encode_order_invariant c4A c4B rfl rfl rfl

end AgeToken
